import Mathlib

/-!
Verification of the Lectra RAG pipeline specification.

The backend services (chunker, embedding service, vector store, answer
pipeline) are described in the repository documentation; their behaviour
is modelled here from the specification, while the frontend upload handler
and the Phase 5 database migration are translated from the source files
`components/FileUpload.tsx` and `backend/database/migration_phase5.sql`.
-/

namespace Lectra

/-! ## Chunker -/

/-- Modelled from the spec: the Chunker of `services/embeddings.py` (file
missing from the sources; spec section 4.2). It walks the text producing
non-final chunks of exactly `C` characters, each subsequent chunk starting
`C - O` characters after the previous chunk, the final chunk being whatever
remains. The first argument is fuel; `chunkFrom` supplies the text length,
which always suffices because each step consumes at least one character
when `O < C`. The degenerate case `C ≤ O` (excluded by the spec) stops
immediately. -/
def chunkGo (C O : Nat) : Nat → List Char → List (List Char)
  | 0, s => [s]
  | fuel + 1, s =>
    if s.length ≤ C ∨ C ≤ O then [s]
    else s.take C :: chunkGo C O fuel (s.drop (C - O))

/-- Modelled from the spec: split a text into overlapping chunks of size `C`
with overlap `O` (spec section 4.2). -/
def chunkFrom (C O : Nat) (s : List Char) : List (List Char) :=
  chunkGo C O s.length s

/-- Modelled from the spec: the unique (non-overlapping) span of each chunk.
Every non-final chunk contributes its first `C - O` characters (the rest is
shared with the next chunk); the final chunk contributes all of itself. -/
def uniqueSpans (C O : Nat) : List (List Char) → List (List Char)
  | [] => []
  | [c] => [c]
  | c :: c2 :: cs => c.take (C - O) :: uniqueSpans C O (c2 :: cs)

theorem chunkGo_ne_nil (C O fuel : Nat) (s : List Char) :
    chunkGo C O fuel s ≠ [] := by
  cases fuel with
  | zero => simp [chunkGo]
  | succ n =>
    unfold chunkGo
    split <;> simp

theorem chunkGo_of_le (C O fuel : Nat) (s : List Char) (h : s.length ≤ C) :
    chunkGo C O fuel s = [s] := by
  cases fuel with
  | zero => rfl
  | succ n =>
    unfold chunkGo
    rw [if_pos (Or.inl h)]

theorem uniqueSpans_join_chunkGo (C O : Nat) (hO : O < C) :
    ∀ (fuel : Nat) (s : List Char), s.length ≤ fuel →
      (uniqueSpans C O (chunkGo C O fuel s)).flatten = s := by
  intro fuel
  induction fuel with
  | zero =>
    intro s hs
    have : s = [] := List.eq_nil_of_length_eq_zero (Nat.le_zero.mp hs)
    subst this
    simp [chunkGo, uniqueSpans]
  | succ n ih =>
    intro s hs
    unfold chunkGo
    by_cases hc : s.length ≤ C ∨ C ≤ O
    · rw [if_pos hc]
      simp [uniqueSpans]
    · rw [if_neg hc]
      push_neg at hc
      obtain ⟨hlen, _⟩ := hc
      have hdrop : (s.drop (C - O)).length ≤ n := by
        rw [List.length_drop]
        omega
      have hrec := ih (s.drop (C - O)) hdrop
      obtain ⟨hd, tl, heq⟩ := List.exists_cons_of_ne_nil
        (chunkGo_ne_nil C O n (s.drop (C - O)))
      rw [heq]
      rw [heq] at hrec
      simp only [uniqueSpans, List.flatten]
      rw [hrec]
      rw [List.take_take]
      rw [min_eq_left (Nat.sub_le C O)]
      exact List.take_append_drop (C - O) s

theorem chunkGo_length_of_gt (C O : Nat) (hO : O < C) :
    ∀ (fuel : Nat) (s : List Char), s.length ≤ fuel → C < s.length →
      (chunkGo C O fuel s).length = (s.length - O + (C - O) - 1) / (C - O) := by
  intro fuel
  induction fuel with
  | zero =>
    intro s hs hC
    omega
  | succ n ih =>
    intro s hs hC
    unfold chunkGo
    rw [if_neg (by omega)]
    by_cases hrest : (s.drop (C - O)).length ≤ C
    · rw [chunkGo_of_le C O n (s.drop (C - O)) hrest]
      rw [List.length_drop] at hrest
      have h2 : (s.length - O + (C - O) - 1) / (C - O) = 2 :=
        Nat.div_eq_of_lt_le (by omega) (by omega)
      simp only [List.length_cons, List.length_nil]
      omega
    · push_neg at hrest
      have hdn : (s.drop (C - O)).length ≤ n := by
        rw [List.length_drop]
        omega
      rw [List.length_cons, ih (s.drop (C - O)) hdn hrest]
      rw [List.length_drop] at hrest ⊢
      have h1 : s.length - O + (C - O) - 1 = (s.length - (C - O) - O + (C - O) - 1) + (C - O) := by
        omega
      rw [h1, Nat.add_div_right _ (by omega : 0 < C - O)]

theorem chunkGo_get? (C O : Nat) (hO : O < C) :
    ∀ (fuel : Nat) (s : List Char) (i : Nat), s.length ≤ fuel →
      i < (chunkGo C O fuel s).length →
      (chunkGo C O fuel s).get? i = some ((s.drop (i * (C - O))).take C) := by
  intro fuel
  induction fuel with
  | zero =>
    intro s i hs hi
    have hnil : s = [] := List.eq_nil_of_length_eq_zero (Nat.le_zero.mp hs)
    subst hnil
    simp only [chunkGo, List.length_singleton] at hi
    interval_cases i
    simp [chunkGo]
  | succ n ih =>
    intro s i hs hi
    unfold chunkGo at hi ⊢
    by_cases hc : s.length ≤ C ∨ C ≤ O
    · rw [if_pos hc] at hi ⊢
      simp only [List.length_singleton] at hi
      interval_cases i
      simp only [List.get?]
      rw [Nat.zero_mul, List.drop_zero]
      rcases hc with h | h
      · rw [List.take_of_length_le h]
      · omega
    · rw [if_neg hc] at hi ⊢
      push_neg at hc
      obtain ⟨hlen, _⟩ := hc
      have hdn : (s.drop (C - O)).length ≤ n := by
        rw [List.length_drop]
        omega
      cases i with
      | zero =>
        simp only [List.get?]
        rw [Nat.zero_mul, List.drop_zero]
      | succ j =>
        simp only [List.get?]
        simp only [List.length_cons] at hi
        rw [ih (s.drop (C - O)) j hdn (by omega)]
        rw [List.drop_drop]
        congr 2
        ring_nf

theorem chunkGo_nonfinal_length (C O : Nat) (hO : O < C) :
    ∀ (fuel : Nat) (s : List Char) (i : Nat), s.length ≤ fuel →
      i + 1 < (chunkGo C O fuel s).length →
      ((s.drop (i * (C - O))).take C).length = C := by
  intro fuel
  induction fuel with
  | zero =>
    intro s i hs hi
    have hnil : s = [] := List.eq_nil_of_length_eq_zero (Nat.le_zero.mp hs)
    subst hnil
    simp [chunkGo] at hi
  | succ n ih =>
    intro s i hs hi
    unfold chunkGo at hi
    by_cases hc : s.length ≤ C ∨ C ≤ O
    · rw [if_pos hc] at hi
      simp at hi
    · rw [if_neg hc] at hi
      push_neg at hc
      obtain ⟨hlen, _⟩ := hc
      have hdn : (s.drop (C - O)).length ≤ n := by
        rw [List.length_drop]
        omega
      cases i with
      | zero =>
        rw [Nat.zero_mul, List.drop_zero, List.length_take]
        omega
      | succ j =>
        simp only [List.length_cons] at hi
        have := ih (s.drop (C - O)) j hdn (by omega)
        rw [List.drop_drop] at this
        rw [show (j + 1) * (C - O) = C - O + j * (C - O) by ring]
        exact this

/-! ## Vector Index Client -/

/-- Modelled from the spec: the metadata blob stored with every vector in
Pinecone, as documented for `services/vector_store.py` (file missing from
the sources): user id, file name, chunk index and an excerpt of the chunk
text. -/
structure VectorMetadata where
  userId : String
  fileName : String
  chunkIndex : Nat
  chunkText : String
deriving DecidableEq, Repr

/-- Modelled from the spec: one stored vector of the Vector Index, carrying
its id, the owner id used for query filtering, the embedding values and the
metadata blob. -/
structure StoredVector where
  id : String
  owner : String
  values : List Int
  metadata : VectorMetadata
deriving DecidableEq, Repr

/-- Modelled from the spec: the deterministic vector id derived from
(ownerId, documentId, chunkIndex), a stable string key (spec sections 4.5
and 9). -/
def vectorId (ownerId documentId : String) (chunkIndex : Nat) : String :=
  ownerId ++ "_" ++ documentId ++ "_" ++ toString chunkIndex

/-- Modelled from the spec: upsert of a single vector, idempotent by id —
re-upserting an existing id overwrites the stored record in place, a fresh
id is appended (spec section 4.4). -/
def upsertOne (st : List StoredVector) (v : StoredVector) : List StoredVector :=
  if st.any (fun w => w.id == v.id) then
    st.map (fun w => if w.id == v.id then v else w)
  else
    st ++ [v]

/-- Modelled from the spec: batched upsert of a list of vectors, applied in
order. -/
def upsertBatch (st : List StoredVector) (vs : List StoredVector) : List StoredVector :=
  vs.foldl upsertOne st

/-- Modelled from the spec: similarity score between a query vector and a
stored embedding. The concrete metric (cosine or equivalent) lives in the
external service; it is modelled here as an inner product, and no theorem
below depends on the choice. -/
def score (q v : List Int) : Int :=
  (List.zipWith (· * ·) q v).sum

/-- Modelled from the spec: insertion into a list kept sorted by descending
similarity score. -/
def insertByScore (q : List Int) (v : StoredVector) : List StoredVector → List StoredVector
  | [] => [v]
  | w :: ws =>
    if score q w.values < score q v.values then v :: w :: ws
    else w :: insertByScore q v ws

/-- Modelled from the spec: sort a list of vectors by descending similarity
to the query vector. -/
def sortByScore (q : List Int) (l : List StoredVector) : List StoredVector :=
  l.foldr (insertByScore q) []

/-- Modelled from the spec: `query(ownerId, vector, topK)` of the Vector
Index Client — every query filters on the owner id, sorts the matches by
descending similarity and returns at most `topK` of them (spec
section 4.4). -/
def queryVectors (st : List StoredVector) (ownerId : String) (q : List Int)
    (topK : Nat) : List StoredVector :=
  ((sortByScore q (st.filter (fun v => v.owner == ownerId))).take topK)

/-- Count of stored vectors carrying a given id. -/
def countId (st : List StoredVector) (key : String) : Nat :=
  (st.filter (fun v => v.id == key)).length

/-- Lookup of the stored vector carrying a given id. -/
def findId (st : List StoredVector) (key : String) : Option StoredVector :=
  st.find? (fun v => v.id == key)

theorem mem_insertByScore (q : List Int) (v x : StoredVector) :
    ∀ l : List StoredVector, x ∈ insertByScore q v l → x = v ∨ x ∈ l := by
  intro l
  induction l with
  | nil =>
    intro hx
    simp [insertByScore] at hx
    exact Or.inl hx
  | cons w ws ih =>
    intro hx
    simp only [insertByScore] at hx
    split at hx
    · rcases List.mem_cons.mp hx with h | h
      · exact Or.inl h
      · exact Or.inr h
    · rcases List.mem_cons.mp hx with h | h
      · exact Or.inr (by simp [h])
      · rcases ih h with h2 | h2
        · exact Or.inl h2
        · exact Or.inr (by simp [h2])

theorem mem_sortByScore (q : List Int) (x : StoredVector) :
    ∀ l : List StoredVector, x ∈ sortByScore q l → x ∈ l := by
  intro l
  induction l with
  | nil =>
    intro hx
    simp [sortByScore] at hx
  | cons w ws ih =>
    intro hx
    simp only [sortByScore, List.foldr] at hx
    rcases mem_insertByScore q w x _ hx with h | h
    · simp [h]
    · exact List.mem_cons_of_mem w (ih h)

/-! ## Conversation Store and context window -/

/-- Modelled from the spec: one conversation turn of the `chats` table —
owner id, question and answer. The store itself is an append-only list in
chronological order, oldest first (spec section 3). -/
structure TurnRec where
  owner : String
  question : String
  answer : String
deriving DecidableEq, Repr

/-- The default number of context messages; matches the column default of
`user_preferences.max_context_messages` in
`backend/database/migration_phase5.sql`. -/
def defaultMaxContextMessages : Nat := 3

/-- Modelled from the spec: `listRecent(ownerId, limit)` of the Conversation
Store — take the `n` most recent turns of the owner (the store is in
chronological order, so the most recent are at the end) and return them in
chronological order, oldest first (spec sections 4.6 and 6). -/
def listRecent (st : List TurnRec) (o : String) (n : Nat) : List TurnRec :=
  (((st.filter (fun t => t.owner == o)).reverse).take n).reverse

/-- Modelled from the spec: the derived context window — the most recent
`N` turns for an owner, `N` taken from the per-user configuration when set
and defaulting to 3 (spec section 3). -/
def contextWindow (st : List TurnRec) (o : String) (pref : Option Nat) : List TurnRec :=
  listRecent st o (pref.getD defaultMaxContextMessages)

theorem reverse_take_reverse {α : Type} (l : List α) (n : Nat) :
    (l.reverse.take n).reverse = l.drop (l.length - n) := by
  induction l generalizing n with
  | nil => simp
  | cons a t ih =>
    by_cases h : n ≤ t.length
    · rw [List.reverse_cons, List.take_append_of_le_length (by simpa using h)]
      rw [ih n]
      have : (a :: t).length - n = (t.length - n) + 1 := by
        simp only [List.length_cons]
        omega
      rw [this, List.drop_succ_cons]
    · push_neg at h
      rw [List.take_of_length_le (by simp; omega)]
      rw [List.reverse_reverse]
      have : (a :: t).length - n = 0 := by
        simp only [List.length_cons]
        omega
      rw [this, List.drop_zero]

/-! ## Prompt Assembler -/

/-- Modelled from the spec: the structural parts of an assembled prompt —
system instructions, one rendered question/answer history pair, one
retrieved passage tagged with its citation index, and the current query
(spec section 4.6 step 4). -/
inductive PromptPart where
  | system (instructions : String)
  | historyTurn (question answer : String)
  | passage (citation : Nat) (text : String)
  | query (text : String)
deriving DecidableEq, Repr

/-- Modelled from the spec: a retrieved passage returned to the caller —
source document, chunk index, relevance score and excerpt (spec
section 4.6 output shape). -/
structure Passage where
  document : String
  chunkIndex : Nat
  relevance : Int
  excerpt : String
deriving DecidableEq, Repr

/-- Modelled from the spec: the fixed system instructions of the prompt. -/
def systemInstructions : String :=
  "You are a helpful assistant. Answer using only the provided context."

/-- Modelled from the spec: tag each passage with a citation index, starting
from the given index. -/
def withCitations : Nat → List Passage → List PromptPart
  | _, [] => []
  | i, p :: ps => PromptPart.passage i p.excerpt :: withCitations (i + 1) ps

/-- Modelled from the spec: the Prompt Assembler — system instructions
first, then the history turns in chronological order rendered as
question/answer pairs, then the retrieved passages tagged with 1-based
citation indices, then the current query (spec section 4.6 step 4). -/
def assemblePrompt (instructions : String) (history : List TurnRec)
    (passages : List Passage) (q : String) : List PromptPart :=
  PromptPart.system instructions
    :: (history.map (fun t => PromptPart.historyTurn t.question t.answer)
        ++ (withCitations 1 passages ++ [PromptPart.query q]))

theorem withCitations_length (ps : List Passage) :
    ∀ start : Nat, (withCitations start ps).length = ps.length := by
  induction ps with
  | nil => intro start; rfl
  | cons p ps ih =>
    intro start
    simp only [withCitations, List.length_cons, ih]

theorem withCitations_get? (ps : List Passage) :
    ∀ (start j : Nat) (p : Passage), ps.get? j = some p →
      (withCitations start ps).get? j = some (PromptPart.passage (start + j) p.excerpt) := by
  induction ps with
  | nil =>
    intro start j p hp
    simp at hp
  | cons q qs ih =>
    intro start j p hp
    cases j with
    | zero =>
      simp only [List.get?] at hp
      cases hp
      simp [withCitations]
    | succ k =>
      simp only [List.get?] at hp
      simp only [withCitations, List.get?]
      rw [ih (start + 1) k p hp]
      congr 2
      omega

/-! ## Answer Pipeline -/

/-- Modelled from the spec: the error taxonomy of the Answer Pipeline (spec
section 7). -/
inductive AskError where
  | retrievalUnavailable
  | generationUnavailable
deriving DecidableEq, Repr

/-- Modelled from the spec: the result of `ask` — an answer string and the
retrieved passages as references (spec section 4.6 output). -/
structure AnswerResult where
  answer : String
  references : List Passage
deriving DecidableEq, Repr

/-- Modelled from the spec: the graceful answer returned when retrieval
finds no relevant context for the owner, as documented for the chat
backend. -/
def noContextMessage : String :=
  "No relevant information found in your documents. Please upload documents first."

/-- Modelled from the spec: the user-safe fallback answer returned when the
Generation Client fails (spec section 4.6 step 5). -/
def generationFallbackMessage : String :=
  "The answer service is temporarily unavailable. Please try again."

/-- Turn a retrieved vector into a reference passage for the caller. -/
def toPassage (qv : List Int) (v : StoredVector) : Passage :=
  ⟨v.metadata.fileName, v.metadata.chunkIndex, score qv v.values, v.metadata.chunkText⟩

/-- Modelled from the spec: the `ask` operation of the Answer Pipeline (spec
section 4.6). The query embedding and the Generation Client are passed as
the results of the external calls: `qvec` is the embedded query (an error
models `RetrievalUnavailable`), `gen` maps an assembled prompt to the
generated answer. Retrieval is scoped to the owner; an empty result set is
not an error and yields the documented no-context answer with empty
references; otherwise the prompt is assembled from the context window and
the retrieved passages and handed to generation, a generation failure
being replaced by a user-safe fallback message. -/
def ask (st : List StoredVector) (conv : List TurnRec)
    (gen : List PromptPart → Except Unit String) (o : String)
    (qvec : Except Unit (List Int)) (q : String) (topK : Nat)
    (pref : Option Nat) : Except AskError AnswerResult :=
  match qvec with
  | .error _ => .error .retrievalUnavailable
  | .ok qv =>
    let results := queryVectors st o qv topK
    if results.isEmpty then
      .ok ⟨noContextMessage, []⟩
    else
      let history := contextWindow conv o pref
      let passages := results.map (toPassage qv)
      let prompt := assemblePrompt systemInstructions history passages q
      match gen prompt with
      | .ok a => .ok ⟨a, passages⟩
      | .error _ => .ok ⟨generationFallbackMessage, passages⟩

/-! ## Ingestion Pipeline -/

/-- Modelled from the spec: the terminal document states of the ingestion
state machine (spec section 4.5). -/
inductive DocStatus where
  | complete
  | failed
deriving DecidableEq, Repr

/-- Modelled from the spec: the ingestion result — status, chunk counts,
how many chunks succeeded and failed, and how many vectors were stored
(spec sections 4.3, 4.5 and 7). -/
structure IngestResult where
  status : DocStatus
  chunksCreated : Nat
  chunksSucceeded : Nat
  chunksFailed : Nat
  vectorsStored : Nat
deriving DecidableEq, Repr

/-- Modelled from the spec: embed the chunks in order, starting at chunk
index `i`. The client is the Embedding Client after its bounded retries: an
error is a permanent failure, which aborts the walk. Returns the embeddings
of the chunks that succeeded and the number of chunks that did not. -/
def embedChunks (client : Nat → Except Unit (List Int)) :
    Nat → List (List Char) → List (List Int) × Nat
  | _, [] => ([], 0)
  | i, _c :: rest =>
    match client i with
    | .ok v =>
      let r := embedChunks client (i + 1) rest
      (v :: r.1, r.2)
    | .error _ => ([], rest.length + 1)

/-- Modelled from the spec: build the stored vectors for a document from
the embedded chunks, with deterministic ids derived from
(ownerId, documentId, chunkIndex) (spec section 4.5). -/
def buildVectors (o d : String) : Nat → List (List Int) → List (List Char) → List StoredVector
  | _, [], _ => []
  | _, _, [] => []
  | i, v :: vs, c :: cs =>
    ⟨vectorId o d i, o, v, ⟨o, d, i, String.mk c⟩⟩ :: buildVectors o d (i + 1) vs cs

/-- Modelled from the spec: the Ingestion Pipeline after text extraction —
chunk the text, embed every chunk, and either store all vectors and report
`complete`, or abort on the first permanent embedding failure and report
how many chunks succeeded and how many failed, leaving the store untouched
and the document not `complete` (spec sections 4.3 and 4.5). -/
def ingestDocument (client : Nat → Except Unit (List Int)) (text : List Char)
    (C O : Nat) (o d : String) (st : List StoredVector) :
    IngestResult × List StoredVector :=
  let chunks := chunkFrom C O text
  let r := embedChunks client 0 chunks
  if r.2 = 0 then
    (⟨.complete, chunks.length, chunks.length, 0, r.1.length⟩,
     upsertBatch st (buildVectors o d 0 r.1 chunks))
  else
    (⟨.failed, chunks.length, r.1.length, r.2, 0⟩, st)

theorem embedChunks_spec (client : Nat → Except Unit (List Int)) (k : Nat) :
    ∀ (start : Nat) (cs : List (List Char)), k < cs.length →
      (∀ j, j < k → ∃ v, client (start + j) = .ok v) →
      client (start + k) = .error () →
      (embedChunks client start cs).1.length = k ∧
      (embedChunks client start cs).2 = cs.length - k := by
  induction k with
  | zero =>
    intro start cs hk hok hfail
    obtain ⟨c, rest, rfl⟩ := List.exists_cons_of_ne_nil (List.ne_nil_of_length_pos hk)
    rw [Nat.add_zero] at hfail
    simp only [embedChunks, hfail]
    simp
  | succ k ih =>
    intro start cs hk hok hfail
    obtain ⟨c, rest, rfl⟩ := List.exists_cons_of_ne_nil
      (List.ne_nil_of_length_pos (Nat.lt_of_le_of_lt (Nat.zero_le _) hk))
    obtain ⟨v, hv⟩ := hok 0 (Nat.succ_pos k)
    rw [Nat.add_zero] at hv
    simp only [embedChunks, hv]
    have hrest : k < rest.length := by
      simp only [List.length_cons] at hk
      omega
    have hok2 : ∀ j, j < k → ∃ w, client (start + 1 + j) = .ok w := by
      intro j hj
      have := hok (j + 1) (by omega)
      rwa [show start + (j + 1) = start + 1 + j by omega] at this
    have hfail2 : client (start + 1 + k) = .error () := by
      rwa [show start + 1 + k = start + (k + 1) by omega]
    have := ih (start + 1) rest hrest hok2 hfail2
    simp only [List.length_cons]
    omega

/-! ## Frontend upload handler, from components/FileUpload.tsx -/

/-- The results of the external calls made by `handleUpload` in
`components/FileUpload.tsx`: whether a user session exists, the result of
the storage upload, the result of the `uploads` row insert, and whether the
ingest endpoint responded ok. -/
structure UploadDeps where
  authOk : Bool
  storageResult : Except String Unit
  dbResult : Except String Unit
  ingestOk : Bool

/-- Observable outcome of `handleUpload`: whether the file remains in
storage, whether the `uploads` row remains in the database, whether
ingestion succeeded, whether `onUploadSuccess` was invoked, and whether an
error toast was shown. -/
structure UploadOutcome where
  storedFile : Bool
  uploadsRow : Bool
  ingestSucceeded : Bool
  successCallbackInvoked : Bool
  errorToast : Bool
deriving DecidableEq, Repr

/-- Translation of `handleUpload` from `components/FileUpload.tsx`. The
outer try/catch aborts on a missing user, a storage error or a database
error; the ingest call sits in an inner try/catch whose handler only shows
an error toast, after which control falls through to `setFile(null)` and
`onUploadSuccess()`. Nothing is ever rolled back. -/
def handleUpload (d : UploadDeps) : UploadOutcome :=
  if !d.authOk then
    ⟨false, false, false, false, true⟩
  else
    match d.storageResult with
    | .error _ => ⟨false, false, false, false, true⟩
    | .ok _ =>
      match d.dbResult with
      | .error _ => ⟨true, false, false, false, true⟩
      | .ok _ =>
        if d.ingestOk then ⟨true, true, true, true, false⟩
        else ⟨true, true, false, true, true⟩

/-! ## User preferences, from backend/database/migration_phase5.sql -/

/-- A row of the `user_preferences` table of
`backend/database/migration_phase5.sql`, with its column defaults. -/
structure PrefRow where
  userId : String
  language : String
  chatMemoryEnabled : Bool
  maxContextMessages : Nat
deriving DecidableEq, Repr

/-- The row inserted by `create_default_preferences`: every column takes
its declared default — language `en`, `chat_memory_enabled` true,
`max_context_messages` 3. -/
def defaultPrefRow (uid : String) : PrefRow :=
  ⟨uid, "en", true, defaultMaxContextMessages⟩

/-- Translation of the `create_default_preferences` trigger function:
insert a default row for the user, `ON CONFLICT (user_id) DO NOTHING` —
if a row for the user already exists the table is unchanged. -/
def createDefaultPreferences (prefs : List PrefRow) (uid : String) : List PrefRow :=
  if prefs.any (fun r => r.userId == uid) then prefs
  else prefs ++ [defaultPrefRow uid]

/-- The auth database: the `auth.users` table and the `user_preferences`
table. -/
structure AuthDb where
  users : List String
  prefs : List PrefRow
deriving DecidableEq, Repr

/-- Translation of a user insert together with the `on_auth_user_created`
trigger of `backend/database/migration_phase5.sql`: `AFTER INSERT ON
auth.users` runs `create_default_preferences` for the new row. -/
def insertUser (db : AuthDb) (uid : String) : AuthDb :=
  ⟨db.users ++ [uid], createDefaultPreferences db.prefs uid⟩

/-! ## Shared list helpers -/

theorem find?_append_of_none {α : Type} (p : α → Bool) (l₁ l₂ : List α)
    (h : ∀ x ∈ l₁, p x = false) : (l₁ ++ l₂).find? p = l₂.find? p := by
  induction l₁ with
  | nil => rfl
  | cons a t ih =>
    simp only [List.cons_append, List.find?]
    rw [h a (List.mem_cons_self a t)]
    exact ih (fun x hx => h x (List.mem_cons_of_mem a hx))

theorem filter_append_of_none {α : Type} (p : α → Bool) (l₁ l₂ : List α)
    (h : ∀ x ∈ l₁, p x = false) : (l₁ ++ l₂).filter p = l₂.filter p := by
  rw [List.filter_append]
  rw [List.filter_eq_nil_iff.mpr (fun x hx => by simp [h x hx])]
  rfl

/-! ## Claims -/

/-- C2: for every text T, chunk size C and overlap O with O < C,
concatenating the unique (non-overlapping) spans of the chunks produced by
the Chunker, in sequence-index order, reconstructs T exactly. -/
theorem chunker_reconstruction (C O : Nat) (s : List Char) (hO : O < C) :
    (uniqueSpans C O (chunkFrom C O s)).flatten = s :=
  uniqueSpans_join_chunkGo C O hO s.length s (Nat.le_refl _)

theorem chunker_reconstruction_witness :
    1 < 3 ∧
    (uniqueSpans 3 1 (chunkFrom 3 1 ['a', 'b', 'c', 'd', 'e'])).flatten
      = ['a', 'b', 'c', 'd', 'e'] :=
  ⟨by decide, chunker_reconstruction 3 1 ['a', 'b', 'c', 'd', 'e'] (by decide)⟩

/-- C3: for every text longer than C the Chunker produces exactly
ceil((len - O) / (C - O)) chunks, every non-final chunk is exactly C
characters long and the i-th chunk starts i * (C - O) characters into the
text (so each chunk starts C - O after the previous one); every non-empty
text shorter than C produces exactly one chunk. -/
theorem chunker_count_and_layout (C O : Nat) (s : List Char) (hO : O < C) :
    (C < s.length →
      (chunkFrom C O s).length = (s.length - O + (C - O) - 1) / (C - O) ∧
      (∀ i, i < (chunkFrom C O s).length →
        (chunkFrom C O s).get? i = some ((s.drop (i * (C - O))).take C)) ∧
      (∀ i, i + 1 < (chunkFrom C O s).length →
        ((s.drop (i * (C - O))).take C).length = C)) ∧
    (0 < s.length → s.length < C → chunkFrom C O s = [s]) := by
  constructor
  · intro hC
    exact ⟨chunkGo_length_of_gt C O hO s.length s (Nat.le_refl _) hC,
      fun i hi => chunkGo_get? C O hO s.length s i (Nat.le_refl _) hi,
      fun i hi => chunkGo_nonfinal_length C O hO s.length s i (Nat.le_refl _) hi⟩
  · intro _ hC
    exact chunkGo_of_le C O s.length s (Nat.le_of_lt hC)

theorem chunker_count_and_layout_witness :
    (1 < 3 ∧ 3 < (['a', 'b', 'c', 'd', 'e', 'f'] : List Char).length ∧
      (chunkFrom 3 1 ['a', 'b', 'c', 'd', 'e', 'f']).length
        = ((['a', 'b', 'c', 'd', 'e', 'f'] : List Char).length - 1 + (3 - 1) - 1) / (3 - 1)) ∧
    chunkFrom 3 1 ['a', 'b'] = [['a', 'b']] := by
  have h1 := chunker_count_and_layout 3 1 ['a', 'b', 'c', 'd', 'e', 'f'] (by decide)
  have h2 := chunker_count_and_layout 3 1 ['a', 'b'] (by decide)
  exact ⟨⟨by decide, by decide, (h1.1 (by decide)).1⟩, h2.2 (by decide) (by decide)⟩

/-- C1: every result returned by the Vector Index Client for a query as
owner A carries owner id A, and no vector belonging to any other owner B
ever appears, for any query vector and any topK, because every query
filters on the owner id. -/
theorem queryVectors_owner_isolation (st : List StoredVector) (A : String)
    (qv : List Int) (topK : Nat) :
    (∀ r ∈ queryVectors st A qv topK, r.owner = A) ∧
    (∀ B, B ≠ A → ∀ r ∈ queryVectors st A qv topK, r.owner ≠ B) := by
  have key : ∀ r ∈ queryVectors st A qv topK, r.owner = A := by
    intro r hr
    have h1 : r ∈ sortByScore qv (st.filter (fun v => v.owner == A)) :=
      List.mem_of_mem_take hr
    have h2 := mem_sortByScore qv r _ h1
    have h3 := List.of_mem_filter h2
    exact eq_of_beq h3
  exact ⟨key, fun B hB r hr hrB => hB (hrB ▸ key r hr)⟩

theorem queryVectors_owner_isolation_witness :
    (⟨"A_d_0", "A", [1], ⟨"A", "d", 0, "x"⟩⟩ : StoredVector) ∈
      queryVectors [⟨"A_d_0", "A", [1], ⟨"A", "d", 0, "x"⟩⟩,
        ⟨"B_d_0", "B", [5], ⟨"B", "d", 0, "y"⟩⟩] "A" [1] 5 ∧
    (⟨"A_d_0", "A", [1], ⟨"A", "d", 0, "x"⟩⟩ : StoredVector).owner = "A" :=
  ⟨by decide,
   (queryVectors_owner_isolation [⟨"A_d_0", "A", [1], ⟨"A", "d", 0, "x"⟩⟩,
      ⟨"B_d_0", "B", [5], ⟨"B", "d", 0, "y"⟩⟩] "A" [1] 5).1 _ (by decide)⟩

/-- C4: the stored vector id is the deterministic function `vectorId` of
(ownerId, documentId, chunkIndex), and upserting two vectors with that same
id and different metadata into a store that does not yet contain the id
leaves exactly one stored vector under the id, carrying the second
embedding and metadata. -/
theorem upsert_idempotent_by_id (st : List StoredVector) (o d : String) (i : Nat)
    (e1 e2 : List Int) (m1 m2 : VectorMetadata)
    (h : ∀ w ∈ st, w.id ≠ vectorId o d i) :
    countId (upsertOne (upsertOne st ⟨vectorId o d i, o, e1, m1⟩)
        ⟨vectorId o d i, o, e2, m2⟩) (vectorId o d i) = 1 ∧
    findId (upsertOne (upsertOne st ⟨vectorId o d i, o, e1, m1⟩)
        ⟨vectorId o d i, o, e2, m2⟩) (vectorId o d i)
      = some ⟨vectorId o d i, o, e2, m2⟩ := by
  have hfalse : ∀ w ∈ st, (w.id == vectorId o d i) = false := by
    intro w hw
    exact beq_eq_false_iff_ne.mpr (h w hw)
  have hany1 : st.any (fun w => w.id == vectorId o d i) = false := by
    rw [List.any_eq_false]
    intro w hw
    simp [hfalse w hw]
  have step1 : upsertOne st ⟨vectorId o d i, o, e1, m1⟩
      = st ++ [⟨vectorId o d i, o, e1, m1⟩] := by
    simp only [upsertOne]
    rw [if_neg (by simp [hany1])]
  have hany2 : (st ++ [(⟨vectorId o d i, o, e1, m1⟩ : StoredVector)]).any
      (fun w => w.id == (⟨vectorId o d i, o, e2, m2⟩ : StoredVector).id) = true := by
    rw [List.any_append]
    simp
  have step2 : upsertOne (st ++ [⟨vectorId o d i, o, e1, m1⟩])
      ⟨vectorId o d i, o, e2, m2⟩ = st ++ [⟨vectorId o d i, o, e2, m2⟩] := by
    simp only [upsertOne]
    rw [if_pos (by simp [hany2])]
    rw [List.map_append]
    congr 1
    · have hcongr := List.map_congr_left
        (fun w hw => by simp [hfalse w hw] :
          ∀ w ∈ st, (fun w => if w.id == vectorId o d i
            then (⟨vectorId o d i, o, e2, m2⟩ : StoredVector) else w) w = id w)
      rw [hcongr, List.map_id]
    · simp
  rw [step1, step2]
  constructor
  · unfold countId
    rw [filter_append_of_none _ _ _ hfalse]
    simp
  · unfold findId
    rw [find?_append_of_none _ _ _ hfalse]
    simp [List.find?]

theorem upsert_idempotent_by_id_witness :
    countId (upsertOne (upsertOne [] ⟨vectorId "u" "doc" 0, "u", [1], ⟨"u", "doc", 0, "first"⟩⟩)
        ⟨vectorId "u" "doc" 0, "u", [2], ⟨"u", "doc", 0, "second"⟩⟩) (vectorId "u" "doc" 0) = 1 ∧
    findId (upsertOne (upsertOne [] ⟨vectorId "u" "doc" 0, "u", [1], ⟨"u", "doc", 0, "first"⟩⟩)
        ⟨vectorId "u" "doc" 0, "u", [2], ⟨"u", "doc", 0, "second"⟩⟩) (vectorId "u" "doc" 0)
      = some ⟨vectorId "u" "doc" 0, "u", [2], ⟨"u", "doc", 0, "second"⟩⟩ :=
  upsert_idempotent_by_id [] "u" "doc" 0 [1] [2] ⟨"u", "doc", 0, "first"⟩
    ⟨"u", "doc", 0, "second"⟩ (by simp)

/-- C5: for every ask invocation, the assembled prompt consists, in this
order, of the system instructions at position 0, the history turns in input
(chronological) order at positions 1..H rendered as question/answer pairs,
the retrieved passages at positions H+1..H+P each tagged with its 1-based
citation index, and the current query last — history strictly before
passages and passages strictly before the query. -/
theorem assemblePrompt_fixed_order (instructions : String) (history : List TurnRec)
    (passages : List Passage) (q : String) :
    (assemblePrompt instructions history passages q).length
      = history.length + passages.length + 2 ∧
    (assemblePrompt instructions history passages q).get? 0
      = some (PromptPart.system instructions) ∧
    (∀ i t, history.get? i = some t →
      (assemblePrompt instructions history passages q).get? (1 + i)
        = some (PromptPart.historyTurn t.question t.answer)) ∧
    (∀ j p, passages.get? j = some p →
      (assemblePrompt instructions history passages q).get? (1 + history.length + j)
        = some (PromptPart.passage (1 + j) p.excerpt)) ∧
    (assemblePrompt instructions history passages q).get?
        (1 + history.length + passages.length)
      = some (PromptPart.query q) := by
  refine ⟨?_, rfl, ?_, ?_, ?_⟩
  · simp only [assemblePrompt, List.length_cons, List.length_append,
      List.length_map, withCitations_length, List.length_nil]
    omega
  · intro i t ht
    have hi : i < history.length := by
      rcases List.get?_eq_some.mp ht with ⟨hb, _⟩
      exact hb
    rw [Nat.add_comm 1 i]
    simp only [assemblePrompt, List.get?_cons_succ]
    rw [List.get?_append (by simpa using hi)]
    rw [List.get?_map, ht]
    rfl
  · intro j p hp
    have hj : j < passages.length := by
      rcases List.get?_eq_some.mp hp with ⟨hb, _⟩
      exact hb
    rw [show 1 + history.length + j = (history.length + j) + 1 by omega]
    simp only [assemblePrompt, List.get?_cons_succ]
    rw [List.get?_append_right (by simp)]
    rw [List.length_map]
    rw [show history.length + j - history.length = j by omega]
    rw [List.get?_append (by simpa [withCitations_length] using hj)]
    exact withCitations_get? passages 1 j p hp
  · rw [show 1 + history.length + passages.length
        = (history.length + passages.length) + 1 by omega]
    simp only [assemblePrompt, List.get?_cons_succ]
    rw [List.get?_append_right (by simp)]
    rw [List.length_map]
    rw [show history.length + passages.length - history.length = passages.length by omega]
    rw [List.get?_append_right (by simp [withCitations_length])]
    simp [withCitations_length]

theorem assemblePrompt_fixed_order_witness :
    ((["h"].map (fun x => (⟨"A", x, "ans"⟩ : TurnRec))).get? 0
        = some ⟨"A", "h", "ans"⟩) ∧
    (assemblePrompt "sys" [⟨"A", "h", "ans"⟩] [⟨"doc", 0, 1, "ex"⟩] "query").get? 1
      = some (PromptPart.historyTurn "h" "ans") ∧
    (assemblePrompt "sys" [⟨"A", "h", "ans"⟩] [⟨"doc", 0, 1, "ex"⟩] "query").get? 2
      = some (PromptPart.passage 1 "ex") ∧
    (assemblePrompt "sys" [⟨"A", "h", "ans"⟩] [⟨"doc", 0, 1, "ex"⟩] "query").get? 3
      = some (PromptPart.query "query") := by
  have h := assemblePrompt_fixed_order "sys" [⟨"A", "h", "ans"⟩]
    [⟨"doc", 0, 1, "ex"⟩] "query"
  exact ⟨by decide, h.2.2.1 0 ⟨"A", "h", "ans"⟩ (by decide),
    h.2.2.2.1 0 ⟨"doc", 0, 1, "ex"⟩ (by decide), h.2.2.2.2⟩

/-- C6: the conversation context supplied to generation for an owner is
exactly the N most recent conversation turns of that owner — a suffix of
the owner-filtered store, containing no other owner's turns — with N taken
from the per-user preference and defaulting to 3. -/
theorem contextWindow_contents (st : List TurnRec) (o : String) (pref : Option Nat) :
    (∀ t ∈ contextWindow st o pref, t.owner = o) ∧
    contextWindow st o pref
      = (st.filter (fun t => t.owner == o)).drop
          ((st.filter (fun t => t.owner == o)).length - pref.getD 3) ∧
    (contextWindow st o pref).length
      = min (pref.getD 3) (st.filter (fun t => t.owner == o)).length ∧
    contextWindow st o none = listRecent st o 3 := by
  refine ⟨?_, ?_, ?_, rfl⟩
  · intro t ht
    simp only [contextWindow, listRecent, List.mem_reverse] at ht
    have h1 : t ∈ (st.filter (fun t => t.owner == o)).reverse :=
      List.mem_of_mem_take ht
    rw [List.mem_reverse] at h1
    exact eq_of_beq (List.mem_filter.mp h1).2
  · exact reverse_take_reverse (st.filter (fun t => t.owner == o)) _
  · simp [contextWindow, listRecent, defaultMaxContextMessages]

theorem contextWindow_contents_witness :
    (⟨"A", "q3", "a3"⟩ : TurnRec) ∈
      contextWindow [⟨"A", "q1", "a1"⟩, ⟨"B", "qb", "ab"⟩, ⟨"A", "q2", "a2"⟩,
        ⟨"A", "q3", "a3"⟩, ⟨"A", "q4", "a4"⟩] "A" none ∧
    (⟨"A", "q3", "a3"⟩ : TurnRec).owner = "A" :=
  ⟨by decide,
   (contextWindow_contents [⟨"A", "q1", "a1"⟩, ⟨"B", "qb", "ab"⟩, ⟨"A", "q2", "a2"⟩,
      ⟨"A", "q3", "a3"⟩, ⟨"A", "q4", "a4"⟩] "A" none).1 _ (by decide)⟩

/-- C7: empty retrieval is not an error — for an owner with no vectors in
the index, and generally whenever vector retrieval returns an empty result
set, ask succeeds, returning empty references and the graceful no-context
answer. -/
theorem ask_empty_retrieval_ok (st : List StoredVector) (conv : List TurnRec)
    (gen : List PromptPart → Except Unit String) (o : String) (qv : List Int)
    (q : String) (topK : Nat) (pref : Option Nat) :
    (queryVectors st o qv topK = [] →
      ask st conv gen o (.ok qv) q topK pref = .ok ⟨noContextMessage, []⟩) ∧
    ((∀ v ∈ st, v.owner ≠ o) → queryVectors st o qv topK = []) := by
  constructor
  · intro hempty
    simp [ask, hempty]
  · intro hnone
    have hfil : st.filter (fun v => v.owner == o) = [] :=
      List.filter_eq_nil_iff.mpr (fun v hv => by simpa using hnone v hv)
    simp [queryVectors, hfil, sortByScore]

theorem ask_empty_retrieval_ok_witness :
    queryVectors [⟨"B_d_0", "B", [1], ⟨"B", "d", 0, "x"⟩⟩] "A" [1] 3 = [] ∧
    ask [⟨"B_d_0", "B", [1], ⟨"B", "d", 0, "x"⟩⟩] [] (fun _ => Except.ok "hi")
        "A" (.ok [1]) "what" 3 none
      = .ok ⟨noContextMessage, []⟩ := by
  have h := ask_empty_retrieval_ok [⟨"B_d_0", "B", [1], ⟨"B", "d", 0, "x"⟩⟩] []
    (fun _ => Except.ok "hi") "A" [1] "what" 3 none
  have he := h.2 (by decide)
  exact ⟨he, h.1 he⟩

/-- C8: when the Embedding Client fails permanently at chunk index k of a
document that chunks into more than k chunks, ingestion aborts, the result
reports exactly k chunks succeeded and the remaining chunks failed, the
document is not marked complete, and the vector store is left untouched. -/
theorem ingest_reports_progress_on_embed_failure
    (client : Nat → Except Unit (List Int)) (text : List Char) (C O : Nat)
    (o d : String) (st : List StoredVector) (k : Nat)
    (hk : k < (chunkFrom C O text).length)
    (hok : ∀ j, j < k → ∃ v, client j = .ok v)
    (hfail : client k = .error ()) :
    (ingestDocument client text C O o d st).1.chunksSucceeded = k ∧
    (ingestDocument client text C O o d st).1.chunksFailed
      = (chunkFrom C O text).length - k ∧
    (ingestDocument client text C O o d st).1.status ≠ DocStatus.complete ∧
    (ingestDocument client text C O o d st).1.chunksCreated
      = (chunkFrom C O text).length ∧
    (ingestDocument client text C O o d st).2 = st := by
  have hok0 : ∀ j, j < k → ∃ v, client (0 + j) = .ok v := by
    intro j hj
    simpa using hok j hj
  have hfail0 : client (0 + k) = .error () := by simpa using hfail
  have h := embedChunks_spec client k 0 (chunkFrom C O text) hk hok0 hfail0
  have hne : ¬(embedChunks client 0 (chunkFrom C O text)).2 = 0 := by omega
  simp only [ingestDocument]
  rw [if_neg hne]
  refine ⟨h.1, h.2, ?_, rfl, rfl⟩
  intro hcon
  exact DocStatus.noConfusion hcon

theorem ingest_reports_progress_on_embed_failure_witness :
    (ingestDocument (fun i => if i < 2 then Except.ok [(0 : Int)] else Except.error ())
        ['a', 'b', 'c', 'd', 'e', 'f'] 2 1 "u" "doc" []).1.chunksSucceeded = 2 ∧
    (ingestDocument (fun i => if i < 2 then Except.ok [(0 : Int)] else Except.error ())
        ['a', 'b', 'c', 'd', 'e', 'f'] 2 1 "u" "doc" []).1.chunksFailed = 3 ∧
    (ingestDocument (fun i => if i < 2 then Except.ok [(0 : Int)] else Except.error ())
        ['a', 'b', 'c', 'd', 'e', 'f'] 2 1 "u" "doc" []).1.status
      ≠ DocStatus.complete := by
  have h := ingest_reports_progress_on_embed_failure
    (fun i => if i < 2 then Except.ok [(0 : Int)] else Except.error ())
    ['a', 'b', 'c', 'd', 'e', 'f'] 2 1 "u" "doc" [] 2
    (by decide)
    (fun j hj => ⟨[(0 : Int)], if_pos hj⟩)
    rfl
  exact ⟨h.1, h.2.1.trans (by decide), h.2.2.1⟩

/-- C9: upload and ingestion are not atomic — when the storage upload and
the uploads-row insert succeed but the ingestion call fails, handleUpload
keeps the stored file and the uploads row, does not roll anything back, and
still invokes onUploadSuccess, so the document appears in the list while
ingestion stored no vectors. -/
theorem handleUpload_keeps_row_on_ingest_failure (d : UploadDeps)
    (hauth : d.authOk = true) (hst : d.storageResult = .ok ())
    (hdb : d.dbResult = .ok ()) (hing : d.ingestOk = false) :
    (handleUpload d).storedFile = true ∧
    (handleUpload d).uploadsRow = true ∧
    (handleUpload d).successCallbackInvoked = true ∧
    (handleUpload d).ingestSucceeded = false := by
  simp [handleUpload, hauth, hst, hdb, hing]

theorem handleUpload_keeps_row_on_ingest_failure_witness :
    (handleUpload ⟨true, .ok (), .ok (), false⟩).storedFile = true ∧
    (handleUpload ⟨true, .ok (), .ok (), false⟩).uploadsRow = true ∧
    (handleUpload ⟨true, .ok (), .ok (), false⟩).successCallbackInvoked = true ∧
    (handleUpload ⟨true, .ok (), .ok (), false⟩).ingestSucceeded = false :=
  handleUpload_keeps_row_on_ingest_failure ⟨true, .ok (), .ok (), false⟩
    rfl rfl rfl rfl

/-- C10: inserting a new user runs the on_auth_user_created trigger, which
creates exactly one user_preferences row for the user with
chat_memory_enabled defaulting to true and max_context_messages defaulting
to 3; running the trigger function again is a no-op (ON CONFLICT DO
NOTHING), and the user row itself is appended unchanged. -/
theorem insertUser_creates_default_preferences (db : AuthDb) (uid : String)
    (h : ∀ r ∈ db.prefs, r.userId ≠ uid) :
    ((insertUser db uid).prefs.filter (fun r => r.userId == uid)).length = 1 ∧
    (insertUser db uid).prefs.find? (fun r => r.userId == uid)
      = some ⟨uid, "en", true, 3⟩ ∧
    createDefaultPreferences (insertUser db uid).prefs uid = (insertUser db uid).prefs ∧
    (insertUser db uid).users = db.users ++ [uid] := by
  have hfalse : ∀ r ∈ db.prefs, (r.userId == uid) = false := by
    intro r hr
    exact beq_eq_false_iff_ne.mpr (h r hr)
  have hany : db.prefs.any (fun r => r.userId == uid) = false := by
    rw [List.any_eq_false]
    intro r hr
    simp [hfalse r hr]
  have hstep : (insertUser db uid).prefs = db.prefs ++ [defaultPrefRow uid] := by
    simp only [insertUser, createDefaultPreferences]
    rw [if_neg (by simp [hany])]
  refine ⟨?_, ?_, ?_, rfl⟩
  · rw [hstep, filter_append_of_none _ _ _ hfalse]
    simp [defaultPrefRow]
  · rw [hstep, find?_append_of_none _ _ _ hfalse]
    simp [List.find?, defaultPrefRow, defaultMaxContextMessages]
  · rw [hstep]
    simp only [createDefaultPreferences]
    rw [if_pos]
    rw [List.any_append]
    simp [defaultPrefRow]

theorem insertUser_creates_default_preferences_witness :
    ((insertUser ⟨[], []⟩ "u1").prefs.filter (fun r => r.userId == "u1")).length = 1 ∧
    (insertUser ⟨[], []⟩ "u1").prefs.find? (fun r => r.userId == "u1")
      = some ⟨"u1", "en", true, 3⟩ ∧
    createDefaultPreferences (insertUser ⟨[], []⟩ "u1").prefs "u1"
      = (insertUser ⟨[], []⟩ "u1").prefs ∧
    (insertUser ⟨[], []⟩ "u1").users = [] ++ ["u1"] :=
  insertUser_creates_default_preferences ⟨[], []⟩ "u1" (by simp)
